import Mathlib

/-!
# The in-memory index store of `internal/storage/storage.go`

A shallow embedding of `IndexStore` and its four methods `PutDocument`,
`GetDocument`, `UpdateIndex` and `LookupIndex`, followed by the properties of
the store proved from it.

Modelling conventions.

* A Go `map[string]V` is a `GoMap V`: the list of its entries, with pairwise
  distinct keys. `m[k]` is `GoMap.get`, `m[k] = v` is `GoMap.set`. A Go `range`
  over a map visits the entries in an unspecified order; a function that ranges
  over a field of the store takes the order of the visit as an argument, and
  the theorems hold for every permutation of the map's entries.
* `int64` values are integers; the only arithmetic in the program is the
  increment `documentNumCount++`, embedded with its wrap-around at 64 bits
  (`wrap64`); the properties that depend on identifiers being fresh are
  stated for fewer than 2^63 successful registrations.
* A Go slice is an `Option (List _)`: `none` is the `nil` slice, `some l` a
  non-nil slice with elements `l`.
* A Go `error` is an `Option String`: `none` is `nil`, `some msg` an error
  whose text is `msg`.
* A method with receiver `s *IndexStore` takes the store and returns its
  results together with the store after the call.
-/

namespace Storage

/-! ## Go values -/

/-- Wrap-around of a 64-bit signed integer (two-complement arithmetic). -/
def wrap64 (x : Int) : Int := (x + 2 ^ 63) % 2 ^ 64 - 2 ^ 63

/-- Go `error`: `none` is `nil`. -/
abbrev GoError := Option String

/-- Value stored under key `k` in a list of entries. -/
def lookupEntries {ν : Type} (k : String) : List (String × ν) → Option ν
  | [] => none
  | (k', v') :: rest => if k' = k then some v' else lookupEntries k rest

/-- Entries after the assignment `m[k] = v`: the value under an existing key is
replaced, a new key gets a new entry. -/
def assignEntries {ν : Type} (k : String) (v : ν) : List (String × ν) → List (String × ν)
  | [] => [(k, v)]
  | (k', v') :: rest =>
    if k' = k then (k, v) :: rest else (k', v') :: assignEntries k v rest

/-- Go `map[string]ν`: the entries of the map, no key occurring twice. -/
structure GoMap (ν : Type) where
  entries : List (String × ν)
  nodup : (entries.map Prod.fst).Nodup

namespace GoMap

/-- Go `make(map[string]ν)`. -/
def empty {ν : Type} : GoMap ν := ⟨[], List.nodup_nil⟩

/-- Go `v, ok := m[k]`: `some v` when `ok`. -/
def get {ν : Type} (m : GoMap ν) (k : String) : Option ν := lookupEntries k m.entries

/-- Go `m[k] = v`. -/
def set {ν : Type} (m : GoMap ν) (k : String) (v : ν) : GoMap ν :=
  ⟨assignEntries k v m.entries, by
    have keys : ∀ l : List (String × ν), (assignEntries k v l).map Prod.fst
        = if k ∈ l.map Prod.fst then l.map Prod.fst else l.map Prod.fst ++ [k] := by
      intro l
      induction l with
      | nil => simp [assignEntries]
      | cons e rest ih =>
        obtain ⟨k', v'⟩ := e
        by_cases h : k' = k
        · subst h; simp [assignEntries]
        · have h' : ¬ k = k' := fun e => h e.symm
          by_cases hm : k ∈ rest.map Prod.fst
          · simp only [assignEntries, h, if_false, List.map_cons, ih, hm, if_true,
              List.mem_cons, or_true]
          · simp only [assignEntries, h, if_false, List.map_cons, ih, hm, List.mem_cons, h',
              or_self, List.cons_append]
    rw [keys]
    split
    · exact m.nodup
    · rename_i hk
      rw [List.nodup_append]
      refine ⟨m.nodup, List.nodup_singleton k, ?_⟩
      intro a ha hb
      rw [List.mem_singleton] at hb
      subst hb
      exact hk ha⟩

end GoMap

/-! ## The store -/

/-- The struct `DocFreqPair`. -/
structure DocFreqPair where
  DocumentNumber : Int
  WordFrequency : Int
  deriving DecidableEq, Repr

/-- Go `[]DocFreqPair`: `none` is the `nil` slice. -/
abbrev Postings := Option (List DocFreqPair)

/-- Elements of a slice (none for `nil`). -/
def Postings.elems (value : Postings) : List DocFreqPair := value.getD []

/-- Go `append(value, pair)`: always a non-nil slice. -/
def goAppend (value : Postings) (pair : DocFreqPair) : Postings :=
  some (value.elems ++ [pair])

/-- The struct `IndexStore`. -/
structure IndexStore where
  documentMap : GoMap Int
  termInvertedIndex : GoMap Postings
  documentNumCount : Int

/-- The function `NewIndexStore`. -/
def NewIndexStore : IndexStore :=
  { documentMap := GoMap.empty
    termInvertedIndex := GoMap.empty
    documentNumCount := 0 }

/-- The method `PutDocument`: the returned `(number, error)` and the store after the call. -/
def PutDocument (s : IndexStore) (documentPath : String) : (Int × GoError) × IndexStore :=
  if documentPath = "" then
    ((0, some "document path cannot be empty"), s)
  else
    let uniqueNumber := s.documentNumCount
    ((uniqueNumber, none),
      { s with
        documentMap := s.documentMap.set documentPath uniqueNumber
        documentNumCount := wrap64 (s.documentNumCount + 1) })

/-- The loop of `GetDocument` over the entries in the order `order`, with the
`return` that follows it. -/
def scanDocuments (documentNumber : Int) : List (String × Int) → String × GoError
  | [] => ("", some ("document with number " ++ toString documentNumber ++ " not found"))
  | (path, num) :: rest =>
    if num = documentNumber then (path, none) else scanDocuments documentNumber rest

/-- The method `GetDocument`; `order` is the order in which `range s.documentMap`
visits the entries, a permutation of `s.documentMap.entries`. -/
def GetDocument (s : IndexStore) (order : List (String × Int)) (documentNumber : Int) :
    (String × GoError) × IndexStore :=
  (scanDocuments documentNumber order, s)

/-- One iteration of the loop of `UpdateIndex`, on the inverted index. -/
def updateTerm (documentNumber : Int) (index : GoMap Postings) (entry : String × Int) :
    GoMap Postings :=
  match index.get entry.1 with
  | some value =>
    let pair : DocFreqPair := { DocumentNumber := documentNumber, WordFrequency := entry.2 }
    index.set entry.1 (goAppend value pair)
  | none =>
    let pair : DocFreqPair := { DocumentNumber := documentNumber, WordFrequency := entry.2 }
    index.set entry.1 (some [pair])

/-- The method `UpdateIndex`; `wordFrequencies = none` is the `nil` map, and the
loop visits the entries of the map in the order of its `entries`. -/
def UpdateIndex (s : IndexStore) (documentNumber : Int) (wordFrequencies : Option (GoMap Int)) :
    GoError × IndexStore :=
  match wordFrequencies with
  | none => (some "word frequencies cannot be nil", s)
  | some m =>
    (none,
      { s with
        termInvertedIndex := m.entries.foldl (updateTerm documentNumber) s.termInvertedIndex })

/-- The method `LookupIndex`. -/
def LookupIndex (s : IndexStore) (term : String) : (Postings × GoError) × IndexStore :=
  let results : Postings := some []
  if term = "" then
    ((none, some "term cannot be empty"), s)
  else
    match s.termInvertedIndex.get term with
    | some value => ((value, none), s)
    | none => ((results, none), s)

/-! ## Sequences of calls -/

/-- One call of a method of the store, with its arguments (for `GetDocument`
also the order of its scan). -/
inductive Call where
  | PutDocument (documentPath : String)
  | GetDocument (order : List (String × Int)) (documentNumber : Int)
  | UpdateIndex (documentNumber : Int) (wordFrequencies : Option (GoMap Int))
  | LookupIndex (term : String)

/-- The store after one call. -/
def Call.exec (s : IndexStore) : Call → IndexStore
  | .PutDocument documentPath => (Storage.PutDocument s documentPath).2
  | .GetDocument order documentNumber => (Storage.GetDocument s order documentNumber).2
  | .UpdateIndex documentNumber wordFrequencies =>
    (Storage.UpdateIndex s documentNumber wordFrequencies).2
  | .LookupIndex term => (Storage.LookupIndex s term).2

/-- The store after a sequence of calls, first call first. -/
def run (s : IndexStore) (calls : List Call) : IndexStore := calls.foldl Call.exec s

/-- The identifier a call returns when it is a successful `PutDocument`. -/
def Call.putReturn (s : IndexStore) : Call → List Int
  | .PutDocument documentPath =>
    match (Storage.PutDocument s documentPath).1 with
    | (number, none) => [number]
    | (_, some _) => []
  | _ => []

/-- The identifiers returned by the successful `PutDocument` calls of a
sequence of calls started in `s`, in the order of the calls. -/
def putReturns (s : IndexStore) : List Call → List Int
  | [] => []
  | c :: cs => c.putReturn s ++ putReturns (c.exec s) cs

/-- The number of `PutDocument` calls of a sequence that succeed. -/
def successfulPuts (calls : List Call) : Nat := (putReturns NewIndexStore calls).length

/-! ## Notions used to state the properties -/

/-- The postings stored under `term` in an inverted index; none when `term` is
no key of it. -/
def storedPostings (index : GoMap Postings) (term : String) : List DocFreqPair :=
  match index.get term with
  | some value => value.elems
  | none => []

/-- The posting a call adds under `term`: a successful `UpdateIndex(d, m)` with
`term` a key of `m` adds `{d, m[term]}`, every other call none. -/
def Call.posting (term : String) : Call → Option DocFreqPair
  | .UpdateIndex documentNumber (some m) =>
    (m.get term).map (fun freq => { DocumentNumber := documentNumber, WordFrequency := freq })
  | _ => none

/-- The postings the calls of a sequence add under `term`, in the order of the calls. -/
def expectedPostings (term : String) (calls : List Call) : List DocFreqPair :=
  calls.filterMap (Call.posting term)

/-- No key of the inverted index holds the `nil` slice. -/
def NoNilPostings (index : GoMap Postings) : Prop := ∀ t, index.get t ≠ some none

/-- The registry after `n` successful registrations, `n` within the range of
`int64`: the counter is `n`, the identifiers in the registry lie in `[0, n)`,
and no two paths carry the same identifier. -/
def RegistryInv (s : IndexStore) (n : Nat) : Prop :=
  s.documentNumCount = n
    ∧ (∀ p i, s.documentMap.get p = some i → 0 ≤ i ∧ i < n)
    ∧ (∀ p q i, s.documentMap.get p = some i → s.documentMap.get q = some i → p = q)

/-- The registration a call makes when it is a successful `PutDocument`: the
path, with the identifier returned for it. -/
def Call.registration (s : IndexStore) : Call → List (String × Int)
  | .PutDocument documentPath =>
    match (Storage.PutDocument s documentPath).1 with
    | (number, none) => [(documentPath, number)]
    | (_, some _) => []
  | _ => []

/-- The registrations made by the successful `PutDocument` calls of a sequence
of calls started in `s`, in the order of the calls. -/
def registrations (s : IndexStore) : List Call → List (String × Int)
  | [] => []
  | c :: cs => c.registration s ++ registrations (c.exec s) cs

/-- The identifier returned by the most recent successful `PutDocument(p)` of a
sequence of calls started on a fresh store; none when `p` was never registered. -/
def lastRegistration (calls : List Call) (p : String) : Option Int :=
  lookupEntries p (registrations NewIndexStore calls).reverse

/-! ## Lemmas on Go values -/

theorem wrap64_of_inRange (x : Int) (h0 : -2 ^ 63 ≤ x) (h1 : x < 2 ^ 63) : wrap64 x = x := by
  unfold wrap64
  omega

theorem wrap64_add_wrap64 (x y : Int) : wrap64 (wrap64 x + y) = wrap64 (x + y) := by
  unfold wrap64
  omega

theorem lookup_assign_same {ν : Type} (k : String) (v : ν) (l : List (String × ν)) :
    lookupEntries k (assignEntries k v l) = some v := by
  induction l with
  | nil => simp [assignEntries, lookupEntries]
  | cons e rest ih =>
    obtain ⟨k', v'⟩ := e
    by_cases h : k' = k
    · simp [assignEntries, lookupEntries, h]
    · simp [assignEntries, lookupEntries, h, ih]

theorem lookup_assign_other {ν : Type} (k t : String) (v : ν) (l : List (String × ν))
    (h : k ≠ t) : lookupEntries t (assignEntries k v l) = lookupEntries t l := by
  induction l with
  | nil => simp [assignEntries, lookupEntries, h]
  | cons e rest ih =>
    obtain ⟨k', v'⟩ := e
    by_cases hk : k' = k
    · subst hk
      simp [assignEntries, lookupEntries, h]
    · by_cases ht : k' = t
      · subst ht
        simp [assignEntries, lookupEntries, hk]
      · simp [assignEntries, lookupEntries, hk, ht, ih]

theorem GoMap.get_set_same {ν : Type} (m : GoMap ν) (k : String) (v : ν) :
    (m.set k v).get k = some v :=
  lookup_assign_same k v m.entries

theorem GoMap.get_set_other {ν : Type} (m : GoMap ν) (k t : String) (v : ν) (h : k ≠ t) :
    (m.set k v).get t = m.get t :=
  lookup_assign_other k t v m.entries h

theorem GoMap.get_empty {ν : Type} (k : String) : (GoMap.empty : GoMap ν).get k = none := rfl

theorem mem_of_lookupEntries {ν : Type} (k : String) (v : ν) (l : List (String × ν))
    (h : lookupEntries k l = some v) : (k, v) ∈ l := by
  induction l with
  | nil => simp [lookupEntries] at h
  | cons e rest ih =>
    obtain ⟨k', v'⟩ := e
    by_cases hk : k' = k
    · simp [lookupEntries, hk] at h
      simp [hk, h]
    · simp [lookupEntries, hk] at h
      exact List.mem_cons_of_mem _ (ih h)

theorem lookupEntries_of_mem {ν : Type} (k : String) (v : ν) (l : List (String × ν))
    (hn : (l.map Prod.fst).Nodup) (h : (k, v) ∈ l) : lookupEntries k l = some v := by
  induction l with
  | nil => simp at h
  | cons e rest ih =>
    obtain ⟨k', v'⟩ := e
    rw [List.map_cons, List.nodup_cons] at hn
    rcases List.mem_cons.mp h with h | h
    · cases h
      simp [lookupEntries]
    · have hk : k' ≠ k := by
        intro e
        subst e
        exact hn.1 (List.mem_map.mpr ⟨(k', v), h, rfl⟩)
      simp [lookupEntries, hk, ih hn.2 h]

theorem GoMap.mem_entries_iff {ν : Type} (m : GoMap ν) (k : String) (v : ν) :
    (k, v) ∈ m.entries ↔ m.get k = some v :=
  ⟨lookupEntries_of_mem k v m.entries m.nodup, mem_of_lookupEntries k v m.entries⟩

/-! ## Lemmas on the inverted index -/

theorem lookupEntries_of_not_mem_keys {ν : Type} (t : String) (l : List (String × ν))
    (h : t ∉ l.map Prod.fst) : lookupEntries t l = none := by
  induction l with
  | nil => rfl
  | cons e rest ih =>
    obtain ⟨k', v'⟩ := e
    simp only [List.map_cons, List.mem_cons, not_or] at h
    have hk : ¬ k' = t := fun e => h.1 e.symm
    simp [lookupEntries, hk, ih h.2]

theorem updateTerm_get (documentNumber : Int) (index : GoMap Postings) (k : String) (f : Int)
    (t : String) :
    (updateTerm documentNumber index (k, f)).get t
      = if k = t then some (some (storedPostings index t ++ [⟨documentNumber, f⟩]))
        else index.get t := by
  by_cases h : k = t
  · subst h
    cases hg : index.get k with
    | none => simp [updateTerm, hg, GoMap.get_set_same, storedPostings]
    | some value =>
      simp [updateTerm, hg, GoMap.get_set_same, storedPostings, goAppend]
  · cases hg : index.get k with
    | none => simp [updateTerm, hg, GoMap.get_set_other, h]
    | some value => simp [updateTerm, hg, GoMap.get_set_other, h]

theorem foldl_updateTerm_get_absent (documentNumber : Int) (t : String)
    (l : List (String × Int)) (index : GoMap Postings) (h : lookupEntries t l = none) :
    (l.foldl (updateTerm documentNumber) index).get t = index.get t := by
  induction l generalizing index with
  | nil => rfl
  | cons e rest ih =>
    obtain ⟨k, f⟩ := e
    by_cases hk : k = t
    · simp [lookupEntries, hk] at h
    · simp only [lookupEntries, hk, if_false] at h
      rw [List.foldl_cons, ih _ h, updateTerm_get, if_neg hk]

theorem foldl_updateTerm_get_present (documentNumber : Int) (t : String) (f : Int)
    (l : List (String × Int)) (index : GoMap Postings) (hn : (l.map Prod.fst).Nodup)
    (h : lookupEntries t l = some f) :
    (l.foldl (updateTerm documentNumber) index).get t
      = some (some (storedPostings index t ++ [⟨documentNumber, f⟩])) := by
  induction l generalizing index with
  | nil => simp [lookupEntries] at h
  | cons e rest ih =>
    obtain ⟨k, f'⟩ := e
    rw [List.map_cons, List.nodup_cons] at hn
    by_cases hk : k = t
    · subst hk
      simp only [lookupEntries, if_true, Option.some.injEq] at h
      subst h
      rw [List.foldl_cons,
        foldl_updateTerm_get_absent _ _ _ _ (lookupEntries_of_not_mem_keys k rest hn.1),
        updateTerm_get, if_pos rfl]
    · simp only [lookupEntries, hk, if_false] at h
      have hs : storedPostings (updateTerm documentNumber index (k, f')) t
          = storedPostings index t := by
        unfold storedPostings
        rw [updateTerm_get, if_neg hk]
      rw [List.foldl_cons, ih _ hn.2 h, hs]

theorem UpdateIndex_get_present (s : IndexStore) (documentNumber : Int) (m : GoMap Int)
    (t : String) (f : Int) (h : m.get t = some f) :
    (UpdateIndex s documentNumber (some m)).2.termInvertedIndex.get t
      = some (some (storedPostings s.termInvertedIndex t ++ [⟨documentNumber, f⟩])) :=
  foldl_updateTerm_get_present documentNumber t f m.entries s.termInvertedIndex m.nodup h

theorem UpdateIndex_get_absent (s : IndexStore) (documentNumber : Int) (m : GoMap Int)
    (t : String) (h : m.get t = none) :
    (UpdateIndex s documentNumber (some m)).2.termInvertedIndex.get t
      = s.termInvertedIndex.get t :=
  foldl_updateTerm_get_absent documentNumber t m.entries s.termInvertedIndex h

theorem LookupIndex_of_ne_empty (s : IndexStore) (t : String) (ht : t ≠ "") :
    (LookupIndex s t).1
      = (match s.termInvertedIndex.get t with
          | some value => value
          | none => some [], none) := by
  unfold LookupIndex
  simp only [ht, if_false]
  cases s.termInvertedIndex.get t <;> rfl

theorem LookupIndex_elems (s : IndexStore) (t : String) (ht : t ≠ "") :
    (LookupIndex s t).1.1.elems = storedPostings s.termInvertedIndex t := by
  rw [LookupIndex_of_ne_empty s t ht]
  unfold storedPostings
  cases s.termInvertedIndex.get t <;> rfl

theorem LookupIndex_UpdateIndex_present (s : IndexStore) (documentNumber : Int) (m : GoMap Int)
    (t : String) (f : Int) (ht : t ≠ "") (h : m.get t = some f) :
    (LookupIndex (UpdateIndex s documentNumber (some m)).2 t).1
      = (goAppend (LookupIndex s t).1.1 ⟨documentNumber, f⟩, none) := by
  rw [LookupIndex_of_ne_empty _ t ht, UpdateIndex_get_present s documentNumber m t f h]
  simp only [goAppend, LookupIndex_elems s t ht]

theorem LookupIndex_UpdateIndex_absent (s : IndexStore) (documentNumber : Int) (m : GoMap Int)
    (t : String) (ht : t ≠ "") (h : m.get t = none) :
    (LookupIndex (UpdateIndex s documentNumber (some m)).2 t).1 = (LookupIndex s t).1 := by
  rw [LookupIndex_of_ne_empty _ t ht, LookupIndex_of_ne_empty _ t ht,
    UpdateIndex_get_absent s documentNumber m t h]

/-! ## Lemmas on sequences of calls: the inverted index -/

theorem run_cons (s : IndexStore) (c : Call) (cs : List Call) :
    run s (c :: cs) = run (c.exec s) cs := rfl

theorem run_append (s : IndexStore) (cs₁ cs₂ : List Call) :
    run s (cs₁ ++ cs₂) = run (run s cs₁) cs₂ := by
  unfold run
  rw [List.foldl_append]

theorem PutDocument_termInvertedIndex (s : IndexStore) (p : String) :
    (PutDocument s p).2.termInvertedIndex = s.termInvertedIndex := by
  unfold PutDocument
  split <;> rfl

theorem exec_get_term (s : IndexStore) (c : Call) (t : String) :
    (c.exec s).termInvertedIndex.get t
      = match c.posting t with
        | some pair => some (some (storedPostings s.termInvertedIndex t ++ [pair]))
        | none => s.termInvertedIndex.get t := by
  cases c with
  | PutDocument p => simp [Call.exec, Call.posting, PutDocument_termInvertedIndex]
  | GetDocument order n => rfl
  | LookupIndex term =>
    simp only [Call.exec, Call.posting, LookupIndex]
    split <;> [rfl; (split <;> rfl)]
  | UpdateIndex n wf =>
    cases wf with
    | none => rfl
    | some m =>
      cases h : m.get t with
      | none => simp [Call.exec, Call.posting, h, UpdateIndex_get_absent]
      | some f => simp [Call.exec, Call.posting, h, UpdateIndex_get_present s n m t f h]

theorem exec_storedPostings (s : IndexStore) (c : Call) (t : String) :
    storedPostings (c.exec s).termInvertedIndex t
      = storedPostings s.termInvertedIndex t ++ (c.posting t).toList := by
  have h := exec_get_term s c t
  cases hp : c.posting t with
  | none =>
    rw [hp] at h
    simp [storedPostings, h]
  | some pair =>
    rw [hp] at h
    simp only [storedPostings, h, Option.toList]
    cases s.termInvertedIndex.get t <;> rfl

theorem exec_noNilPostings (s : IndexStore) (c : Call)
    (h : NoNilPostings s.termInvertedIndex) : NoNilPostings (c.exec s).termInvertedIndex := by
  intro t
  rw [exec_get_term]
  cases c.posting t with
  | none => exact h t
  | some pair => simp

theorem run_storedPostings (s : IndexStore) (calls : List Call) (t : String) :
    storedPostings (run s calls).termInvertedIndex t
      = storedPostings s.termInvertedIndex t ++ expectedPostings t calls := by
  induction calls generalizing s with
  | nil => simp [run, expectedPostings]
  | cons c cs ih =>
    rw [run_cons, ih, exec_storedPostings]
    cases hp : c.posting t <;> simp [expectedPostings, List.filterMap_cons, hp]

theorem run_noNilPostings (s : IndexStore) (calls : List Call)
    (h : NoNilPostings s.termInvertedIndex) : NoNilPostings (run s calls).termInvertedIndex := by
  induction calls generalizing s with
  | nil => exact h
  | cons c cs ih => exact ih _ (exec_noNilPostings s c h)

theorem noNilPostings_new : NoNilPostings NewIndexStore.termInvertedIndex := by
  intro t
  simp [NewIndexStore, GoMap.get_empty]

theorem LookupIndex_of_noNil (s : IndexStore) (t : String) (ht : t ≠ "")
    (h : NoNilPostings s.termInvertedIndex) :
    (LookupIndex s t).1 = (some (storedPostings s.termInvertedIndex t), none) := by
  rw [LookupIndex_of_ne_empty s t ht]
  unfold storedPostings
  cases hg : s.termInvertedIndex.get t with
  | none => rfl
  | some value =>
    cases value with
    | none => exact absurd hg (h t)
    | some l => rfl

theorem LookupIndex_run_new (calls : List Call) (t : String) (ht : t ≠ "") :
    (LookupIndex (run NewIndexStore calls) t).1 = (some (expectedPostings t calls), none) := by
  rw [LookupIndex_of_noNil _ t ht (run_noNilPostings _ calls noNilPostings_new),
    run_storedPostings]
  simp [storedPostings, NewIndexStore, GoMap.get_empty]

/-! ## Lemmas on sequences of calls: the registry -/

theorem PutDocument_of_ne_empty (s : IndexStore) (p : String) (hp : p ≠ "") :
    PutDocument s p
      = ((s.documentNumCount, none),
          { s with
            documentMap := s.documentMap.set p s.documentNumCount
            documentNumCount := wrap64 (s.documentNumCount + 1) }) := by
  unfold PutDocument
  simp [hp]

theorem PutDocument_of_empty (s : IndexStore) :
    PutDocument s "" = ((0, some "document path cannot be empty"), s) := by
  unfold PutDocument
  simp

theorem exec_of_put (s : IndexStore) (p : String) (hp : p ≠ "") :
    (Call.PutDocument p).exec s
      = { s with
          documentMap := s.documentMap.set p s.documentNumCount
          documentNumCount := wrap64 (s.documentNumCount + 1) } := by
  simp [Call.exec, PutDocument_of_ne_empty s p hp]

theorem putReturn_of_put (s : IndexStore) (p : String) (hp : p ≠ "") :
    (Call.PutDocument p).putReturn s = [s.documentNumCount] := by
  simp [Call.putReturn, PutDocument_of_ne_empty s p hp]

/-- A call other than a successful `PutDocument` returns no identifier and
leaves the registry and the counter as they are. -/
theorem exec_of_not_put (s : IndexStore) (c : Call)
    (h : ∀ p, p ≠ "" → c ≠ Call.PutDocument p) :
    c.putReturn s = [] ∧ (c.exec s).documentMap = s.documentMap
      ∧ (c.exec s).documentNumCount = s.documentNumCount := by
  cases c with
  | PutDocument p =>
    have hp : p = "" := by
      by_contra hne
      exact h p hne rfl
    subst hp
    simp [Call.putReturn, Call.exec, PutDocument_of_empty]
  | GetDocument order n => exact ⟨rfl, rfl, rfl⟩
  | LookupIndex term =>
    refine ⟨rfl, ?_, ?_⟩ <;>
    · simp only [Call.exec, LookupIndex]
      split <;> [rfl; (split <;> rfl)]
  | UpdateIndex n wf =>
    cases wf with
    | none => exact ⟨rfl, rfl, rfl⟩
    | some m => exact ⟨rfl, rfl, rfl⟩

/-- Every call is a successful `PutDocument` or leaves the registry alone. -/
theorem call_cases (c : Call) :
    (∃ p, p ≠ "" ∧ c = Call.PutDocument p) ∨ (∀ p, p ≠ "" → c ≠ Call.PutDocument p) := by
  by_cases h : ∃ p, p ≠ "" ∧ c = Call.PutDocument p
  · exact Or.inl h
  · refine Or.inr (fun p hp hc => h ⟨p, hp, hc⟩)

theorem putReturns_cons (s : IndexStore) (c : Call) (cs : List Call) :
    putReturns s (c :: cs) = c.putReturn s ++ putReturns (c.exec s) cs := rfl

theorem putReturns_append (s : IndexStore) (cs₁ cs₂ : List Call) :
    putReturns s (cs₁ ++ cs₂) = putReturns s cs₁ ++ putReturns (run s cs₁) cs₂ := by
  induction cs₁ generalizing s with
  | nil => rfl
  | cons c cs ih => rw [List.cons_append, putReturns_cons, putReturns_cons, ih, run_cons,
      List.append_assoc]

/-- The identifiers returned from a store whose counter is `wrap64 c` are
`wrap64 c`, `wrap64 (c + 1)`, and so on. -/
theorem putReturns_eq (s : IndexStore) (calls : List Call) (c : Int)
    (hc : s.documentNumCount = wrap64 c) :
    putReturns s calls
      = (List.range (putReturns s calls).length).map (fun j : Nat => wrap64 (c + j)) := by
  induction calls generalizing s c with
  | nil => rfl
  | cons c₀ cs ih =>
    rcases call_cases c₀ with ⟨p, hp, rfl⟩ | hnp
    · have hc' : ((Call.PutDocument p).exec s).documentNumCount = wrap64 (c + 1) := by
        rw [exec_of_put s p hp]
        simp only [hc, wrap64_add_wrap64]
      have ih' := ih _ _ hc'
      rw [putReturns_cons, putReturn_of_put s p hp, List.singleton_append, List.length_cons,
        List.range_succ_eq_map, List.map_cons, List.map_map]
      congr 1
      · simp [hc]
      · rw [ih']
        simp only [List.length_map, List.length_range]
        apply List.map_congr_left
        intro j _
        simp only [Function.comp, Nat.succ_eq_add_one, Nat.cast_add, Nat.cast_one]
        congr 1
        ring
    · obtain ⟨h1, _, h3⟩ := exec_of_not_put s c₀ hnp
      rw [putReturns_cons, h1, List.nil_append]
      exact ih _ _ (h3.trans hc)

theorem putReturns_new_nth (calls : List Call) (k : Nat)
    (hk : k < (putReturns NewIndexStore calls).length) :
    (putReturns NewIndexStore calls)[k]? = some (wrap64 k) := by
  have h := putReturns_eq NewIndexStore calls 0 (by simp [NewIndexStore, wrap64])
  rw [h, List.getElem?_map, List.getElem?_range (by simpa using hk)]
  simp

theorem registryInv_new : RegistryInv NewIndexStore 0 := by
  refine ⟨rfl, ?_, ?_⟩
  · intro p i h
    simp [NewIndexStore, GoMap.get_empty] at h
  · intro p q i h
    simp [NewIndexStore, GoMap.get_empty] at h

theorem registryInv_put (s : IndexStore) (n : Nat) (p : String) (hp : p ≠ "")
    (h : RegistryInv s n) (hn : n + 1 < 2 ^ 63) :
    RegistryInv ((Call.PutDocument p).exec s) (n + 1) := by
  obtain ⟨hc, hb, hi⟩ := h
  rw [exec_of_put s p hp]
  refine ⟨?_, ?_, ?_⟩
  · simp only [hc]
    rw [wrap64_of_inRange] <;> push_cast <;> omega
  · intro q i hq
    simp only at hq
    by_cases hpq : p = q
    · subst hpq
      rw [GoMap.get_set_same] at hq
      cases hq
      rw [hc]
      push_cast
      omega
    · rw [GoMap.get_set_other _ _ _ _ hpq] at hq
      have := hb q i hq
      push_cast
      omega
  · intro q r i hq hr
    simp only at hq hr
    by_cases hpq : p = q
    · by_cases hpr : p = r
      · exact hpq.symm.trans hpr
      · subst hpq
        rw [GoMap.get_set_same] at hq
        rw [GoMap.get_set_other _ _ _ _ hpr] at hr
        cases hq
        have := hb r _ hr
        omega
    · by_cases hpr : p = r
      · subst hpr
        rw [GoMap.get_set_same] at hr
        rw [GoMap.get_set_other _ _ _ _ hpq] at hq
        cases hr
        have := hb q _ hq
        omega
      · rw [GoMap.get_set_other _ _ _ _ hpq] at hq
        rw [GoMap.get_set_other _ _ _ _ hpr] at hr
        exact hi q r i hq hr

theorem registryInv_run (s : IndexStore) (calls : List Call) (n : Nat) (h : RegistryInv s n)
    (hn : n + (putReturns s calls).length < 2 ^ 63) :
    RegistryInv (run s calls) (n + (putReturns s calls).length) := by
  induction calls generalizing s n with
  | nil => exact h
  | cons c₀ cs ih =>
    rcases call_cases c₀ with ⟨p, hp, rfl⟩ | hnp
    · rw [putReturns_cons, putReturn_of_put s p hp, List.singleton_append,
        List.length_cons] at hn ⊢
      have h' := registryInv_put s n p hp h (by omega)
      have := ih _ (n + 1) h' (by omega)
      rw [run_cons]
      have e : n + ((putReturns ((Call.PutDocument p).exec s) cs).length + 1)
          = n + 1 + (putReturns ((Call.PutDocument p).exec s) cs).length := by omega
      rw [e]
      exact this
    · obtain ⟨h1, h2, h3⟩ := exec_of_not_put s c₀ hnp
      rw [putReturns_cons, h1, List.nil_append] at hn ⊢
      rw [run_cons]
      refine ih _ n ?_ hn
      unfold RegistryInv
      rw [h2, h3]
      exact h

theorem registryInv_run_new (calls : List Call) (hn : successfulPuts calls < 2 ^ 63) :
    RegistryInv (run NewIndexStore calls) (successfulPuts calls) := by
  have := registryInv_run NewIndexStore calls 0 registryInv_new (by simpa [successfulPuts] using hn)
  simpa [successfulPuts] using this

/-- Every identifier in the registry after a sequence of calls was in the
registry before it or was returned by a successful `PutDocument` of the sequence. -/
theorem get_run_cases (s : IndexStore) (calls : List Call) (q : String) (i : Int)
    (h : (run s calls).documentMap.get q = some i) :
    s.documentMap.get q = some i ∨ i ∈ putReturns s calls := by
  induction calls generalizing s with
  | nil => exact Or.inl h
  | cons c₀ cs ih =>
    rw [run_cons] at h
    rw [putReturns_cons]
    rcases ih _ h with h' | h'
    · rcases call_cases c₀ with ⟨p, hp, rfl⟩ | hnp
      · rw [exec_of_put s p hp] at h'
        simp only at h'
        by_cases hpq : p = q
        · subst hpq
          rw [GoMap.get_set_same] at h'
          cases h'
          right
          rw [putReturn_of_put s p hp]
          simp
        · rw [GoMap.get_set_other _ _ _ _ hpq] at h'
          exact Or.inl h'
      · obtain ⟨_, h2, _⟩ := exec_of_not_put s c₀ hnp
        rw [h2] at h'
        exact Or.inl h'
    · exact Or.inr (List.mem_append_right _ h')

/-- The entry of a path lasts as long as the path is not registered again. -/
theorem get_run_of_not_put (s : IndexStore) (calls : List Call) (p : String)
    (h : ∀ c ∈ calls, c ≠ Call.PutDocument p) :
    (run s calls).documentMap.get p = s.documentMap.get p := by
  induction calls generalizing s with
  | nil => rfl
  | cons c₀ cs ih =>
    rw [run_cons, ih _ (fun c hc => h c (List.mem_cons_of_mem _ hc))]
    rcases call_cases c₀ with ⟨q, hq, rfl⟩ | hnp
    · have hqp : q ≠ p := by
        intro e
        subst e
        exact h _ (List.mem_cons_self _ _) rfl
      rw [exec_of_put s q hq]
      exact GoMap.get_set_other _ _ _ _ hqp
    · obtain ⟨_, h2, _⟩ := exec_of_not_put s c₀ hnp
      rw [h2]

theorem scanDocuments_found (n : Int) (p : String) (order : List (String × Int))
    (hmem : (p, n) ∈ order) (huniq : ∀ q, (q, n) ∈ order → q = p) :
    scanDocuments n order = (p, none) := by
  induction order with
  | nil => simp at hmem
  | cons e rest ih =>
    obtain ⟨q, i⟩ := e
    by_cases hi : i = n
    · subst hi
      have : q = p := huniq q (List.mem_cons_self _ _)
      simp [scanDocuments, this]
    · have hmem' : (p, n) ∈ rest := by
        rcases List.mem_cons.mp hmem with h | h
        · cases h
          exact absurd rfl hi
        · exact h
      simp only [scanDocuments, hi, if_false]
      exact ih hmem' (fun r hr => huniq r (List.mem_cons_of_mem _ hr))

theorem scanDocuments_not_found (n : Int) (order : List (String × Int))
    (h : ∀ q, (q, n) ∉ order) :
    scanDocuments n order
      = ("", some ("document with number " ++ toString n ++ " not found")) := by
  induction order with
  | nil => rfl
  | cons e rest ih =>
    obtain ⟨q, i⟩ := e
    have hi : i ≠ n := by
      intro e
      subst e
      exact h q (List.mem_cons_self _ _)
    simp only [scanDocuments, hi, if_false]
    exact ih (fun r hr => h r (List.mem_cons_of_mem _ hr))

/-- A scan of the registry, in any order, finds the one path that carries the identifier. -/
theorem GetDocument_found (s : IndexStore) (order : List (String × Int)) (n : Int) (p : String)
    (ho : order.Perm s.documentMap.entries) (hp : s.documentMap.get p = some n)
    (huniq : ∀ q, s.documentMap.get q = some n → q = p) :
    GetDocument s order n = ((p, none), s) := by
  unfold GetDocument
  rw [scanDocuments_found n p order]
  · exact ho.mem_iff.mpr ((GoMap.mem_entries_iff _ _ _).mpr hp)
  · intro q hq
    exact huniq q ((GoMap.mem_entries_iff _ _ _).mp (ho.mem_iff.mp hq))

/-- A scan of the registry, in any order, fails for an identifier no path carries. -/
theorem GetDocument_not_found (s : IndexStore) (order : List (String × Int)) (n : Int)
    (ho : order.Perm s.documentMap.entries) (h : ∀ q, s.documentMap.get q ≠ some n) :
    GetDocument s order n
      = (("", some ("document with number " ++ toString n ++ " not found")), s) := by
  unfold GetDocument
  rw [scanDocuments_not_found n order]
  intro q hq
  exact h q ((GoMap.mem_entries_iff _ _ _).mp (ho.mem_iff.mp hq))

theorem length_le_one_of_all_eq {α : Type} (l : List α) (hn : l.Nodup)
    (h : ∀ a ∈ l, ∀ b ∈ l, a = b) : l.length ≤ 1 := by
  match l, hn, h with
  | [], _, _ => simp
  | [_], _, _ => simp
  | a :: b :: rest, hn, h =>
    exfalso
    have hab : a = b := h a (by simp) b (by simp)
    subst hab
    simp at hn

theorem nodup_of_nodup_keys {ν : Type} (l : List (String × ν)) (h : (l.map Prod.fst).Nodup) :
    l.Nodup := List.Nodup.of_map Prod.fst h

/-! ## Properties of the store -/

/-- C1. Started on a fresh store, along any sequence of calls of the four
methods (failing calls included), the `k`-th successful `PutDocument`, counting
from 0, returns the identifier `k`, for every `k` in the range of the `int64`
identifiers: the identifiers returned are 0, 1, 2, ... in this order, also
when the registered paths are equal. -/
theorem PutDocument_returns_sequential (calls : List Call) (k : Nat)
    (hk : k < successfulPuts calls) (h64 : (k : Int) < 2 ^ 63) :
    (putReturns NewIndexStore calls)[k]? = some (k : Int) := by
  rw [putReturns_new_nth calls k hk, wrap64_of_inRange _ (by omega) h64]

theorem PutDocument_returns_sequential_witness :
    2 < successfulPuts
        [.PutDocument "a.txt", .PutDocument "", .GetDocument [] 7, .PutDocument "a.txt",
          .UpdateIndex 3 none, .LookupIndex "x", .PutDocument "b.txt"]
      ∧ ((2 : Nat) : Int) < 2 ^ 63
      ∧ (putReturns NewIndexStore
          [.PutDocument "a.txt", .PutDocument "", .GetDocument [] 7, .PutDocument "a.txt",
            .UpdateIndex 3 none, .LookupIndex "x", .PutDocument "b.txt"])[2]?
        = some ((2 : Nat) : Int) :=
  ⟨by decide, by decide,
    PutDocument_returns_sequential
      [.PutDocument "a.txt", .PutDocument "", .GetDocument [] 7, .PutDocument "a.txt",
        .UpdateIndex 3 none, .LookupIndex "x", .PutDocument "b.txt"] 2 (by decide) (by decide)⟩

/-- C2, as stated, fails: `PutDocument("a.txt")` returns 0, a second
`PutDocument("a.txt")` returns 1 and overwrites the entry of the path, and then
`GetDocument(0)` finds no entry: it returns the empty path and an error. -/
theorem GetDocument_fails_after_reregistration :
    (PutDocument NewIndexStore "a.txt").1 = (0, none)
      ∧ (PutDocument (PutDocument NewIndexStore "a.txt").2 "a.txt").1 = (1, none)
      ∧ (run NewIndexStore [.PutDocument "a.txt", .PutDocument "a.txt"]).documentMap.entries
        = [("a.txt", 1)]
      ∧ (GetDocument (run NewIndexStore [.PutDocument "a.txt", .PutDocument "a.txt"])
          [("a.txt", 1)] 0).1 = ("", some "document with number 0 not found") := by
  decide

/-- C2, amended. Started on a fresh store, let a successful `PutDocument(p)`
return `id`, and let any calls follow among which no `PutDocument(p)` registers
the same path again (fewer than 2^63 successful registrations in all). Then
`GetDocument(id)` succeeds and returns `p`, in whatever order the registry is
scanned. -/
theorem GetDocument_of_last_registration (calls₁ : List Call) (p : String) (calls₂ : List Call)
    (order : List (String × Int)) (hp : p ≠ "")
    (hlast : ∀ c ∈ calls₂, c ≠ Call.PutDocument p)
    (h64 : successfulPuts (calls₁ ++ Call.PutDocument p :: calls₂) < 2 ^ 63)
    (ho : order.Perm
      (run NewIndexStore (calls₁ ++ Call.PutDocument p :: calls₂)).documentMap.entries) :
    (PutDocument (run NewIndexStore calls₁) p).1.2 = none
      ∧ GetDocument (run NewIndexStore (calls₁ ++ Call.PutDocument p :: calls₂)) order
          (PutDocument (run NewIndexStore calls₁) p).1.1
        = ((p, none), run NewIndexStore (calls₁ ++ Call.PutDocument p :: calls₂)) := by
  have hinv := registryInv_run_new _ h64
  have hget : (run NewIndexStore (calls₁ ++ Call.PutDocument p :: calls₂)).documentMap.get p
      = some (run NewIndexStore calls₁).documentNumCount := by
    rw [run_append, run_cons, get_run_of_not_put _ calls₂ p hlast, exec_of_put _ p hp]
    exact GoMap.get_set_same _ _ _
  rw [PutDocument_of_ne_empty _ p hp]
  refine ⟨rfl, ?_⟩
  exact GetDocument_found _ order _ p ho hget (fun q hq => hinv.2.2 q p _ hq hget)

theorem GetDocument_of_last_registration_witness :
    "b.txt" ≠ ""
      ∧ (∀ c ∈ [Call.PutDocument "a.txt", Call.UpdateIndex 0 none], c ≠ Call.PutDocument "b.txt")
      ∧ successfulPuts ([Call.PutDocument "a.txt"] ++ Call.PutDocument "b.txt"
          :: [Call.PutDocument "a.txt", Call.UpdateIndex 0 none]) < 2 ^ 63
      ∧ (PutDocument (run NewIndexStore [Call.PutDocument "a.txt"]) "b.txt").1 = (1, none)
      ∧ GetDocument (run NewIndexStore ([Call.PutDocument "a.txt"] ++ Call.PutDocument "b.txt"
          :: [Call.PutDocument "a.txt", Call.UpdateIndex 0 none])) [("b.txt", 1), ("a.txt", 2)]
          (PutDocument (run NewIndexStore [Call.PutDocument "a.txt"]) "b.txt").1.1
        = (("b.txt", none), run NewIndexStore ([Call.PutDocument "a.txt"]
            ++ Call.PutDocument "b.txt" :: [Call.PutDocument "a.txt", Call.UpdateIndex 0 none])) :=
  ⟨by decide, by simp, by decide, by decide,
    (GetDocument_of_last_registration [Call.PutDocument "a.txt"] "b.txt"
      [Call.PutDocument "a.txt", Call.UpdateIndex 0 none] [("b.txt", 1), ("a.txt", 2)]
      (by decide) (by simp) (by decide)
      (by
        have e : (run NewIndexStore ([Call.PutDocument "a.txt"] ++ Call.PutDocument "b.txt"
            :: [Call.PutDocument "a.txt", Call.UpdateIndex 0 none])).documentMap.entries
            = [("a.txt", 2), ("b.txt", 1)] := by decide
        rw [e]
        exact List.Perm.swap _ _ _)).2⟩

/-- C3. Round trip: in a store reached from a fresh one by any sequence of
calls (fewer than 2^63 successful registrations), for every non-empty path `p`,
`PutDocument(p)` succeeds, and `GetDocument` called right afterwards on the
identifier it returned gives back `p` and no error, in whatever order the
registry is scanned. -/
theorem GetDocument_after_PutDocument (calls : List Call) (p : String)
    (order : List (String × Int)) (hp : p ≠ "") (h64 : successfulPuts calls < 2 ^ 63)
    (ho : order.Perm (PutDocument (run NewIndexStore calls) p).2.documentMap.entries) :
    (PutDocument (run NewIndexStore calls) p).1.2 = none
      ∧ GetDocument (PutDocument (run NewIndexStore calls) p).2 order
          (PutDocument (run NewIndexStore calls) p).1.1
        = ((p, none), (PutDocument (run NewIndexStore calls) p).2) := by
  obtain ⟨_, hb, _⟩ := registryInv_run_new calls h64
  rw [PutDocument_of_ne_empty _ p hp] at ho ⊢
  refine ⟨rfl, ?_⟩
  refine GetDocument_found _ order _ p ho (GoMap.get_set_same _ _ _) ?_
  intro q hq
  by_contra hne
  simp only at hq
  rw [GoMap.get_set_other _ _ _ _ (fun e => hne e.symm)] at hq
  have := hb q _ hq
  omega

theorem GetDocument_after_PutDocument_witness :
    "b.txt" ≠ ""
      ∧ successfulPuts [Call.PutDocument "a.txt", Call.PutDocument "c.txt"] < 2 ^ 63
      ∧ (PutDocument (run NewIndexStore [Call.PutDocument "a.txt", Call.PutDocument "c.txt"])
          "b.txt").1 = (2, none)
      ∧ GetDocument
          (PutDocument (run NewIndexStore [Call.PutDocument "a.txt", Call.PutDocument "c.txt"])
            "b.txt").2
          [("c.txt", 1), ("b.txt", 2), ("a.txt", 0)]
          (PutDocument (run NewIndexStore [Call.PutDocument "a.txt", Call.PutDocument "c.txt"])
            "b.txt").1.1
        = (("b.txt", none),
            (PutDocument (run NewIndexStore [Call.PutDocument "a.txt", Call.PutDocument "c.txt"])
              "b.txt").2) :=
  ⟨by decide, by decide, by decide,
    (GetDocument_after_PutDocument [Call.PutDocument "a.txt", Call.PutDocument "c.txt"] "b.txt"
      [("c.txt", 1), ("b.txt", 2), ("a.txt", 0)] (by decide) (by decide)
      (by
        have e : (PutDocument
            (run NewIndexStore [Call.PutDocument "a.txt", Call.PutDocument "c.txt"])
            "b.txt").2.documentMap.entries = [("a.txt", 0), ("c.txt", 1), ("b.txt", 2)] := by
          decide
        rw [e]
        decide)).2⟩

/-- C4. A call `UpdateIndex(id, m)` with a non-nil mapping `m` succeeds, and for
every non-empty term `t`: when `t` is a key of `m`, `LookupIndex(t)` after the
call is `LookupIndex(t)` before the call with the one posting `{id, m[t]}`
appended at its end (the one-element sequence when `t` was no key of the index);
when `t` is no key of `m`, `LookupIndex(t)` is as before. -/
theorem LookupIndex_after_UpdateIndex (s : IndexStore) (id : Int) (m : GoMap Int) (t : String)
    (ht : t ≠ "") :
    (UpdateIndex s id (some m)).1 = none
      ∧ (∀ f, m.get t = some f →
          (LookupIndex (UpdateIndex s id (some m)).2 t).1
            = (some ((LookupIndex s t).1.1.elems
                ++ [{ DocumentNumber := id, WordFrequency := f }]), none)
          ∧ (s.termInvertedIndex.get t = none →
              (LookupIndex (UpdateIndex s id (some m)).2 t).1
                = (some [{ DocumentNumber := id, WordFrequency := f }], none)))
      ∧ (m.get t = none →
          (LookupIndex (UpdateIndex s id (some m)).2 t).1 = (LookupIndex s t).1) := by
  refine ⟨rfl, ?_, LookupIndex_UpdateIndex_absent s id m t ht⟩
  intro f hf
  have h := LookupIndex_UpdateIndex_present s id m t f ht hf
  refine ⟨h, ?_⟩
  intro hnew
  rw [h, LookupIndex_of_ne_empty s t ht, hnew]
  rfl

theorem LookupIndex_after_UpdateIndex_witness :
    "cat" ≠ ""
      ∧ (LookupIndex (UpdateIndex NewIndexStore 0
          (some ((GoMap.empty.set "cat" 2).set "dog" 1))).2 "cat").1
        = (some [{ DocumentNumber := 0, WordFrequency := 2 }], none)
      ∧ (LookupIndex (UpdateIndex (UpdateIndex NewIndexStore 0
          (some ((GoMap.empty.set "cat" 2).set "dog" 1))).2 1
          (some (GoMap.empty.set "cat" 5))).2 "cat").1
        = (some [{ DocumentNumber := 0, WordFrequency := 2 },
            { DocumentNumber := 1, WordFrequency := 5 }], none)
      ∧ (LookupIndex (UpdateIndex (UpdateIndex NewIndexStore 0
          (some ((GoMap.empty.set "cat" 2).set "dog" 1))).2 1
          (some (GoMap.empty.set "cat" 5))).2 "dog").1
        = (some [{ DocumentNumber := 0, WordFrequency := 1 }], none) :=
  ⟨by decide,
    ((LookupIndex_after_UpdateIndex NewIndexStore 0 ((GoMap.empty.set "cat" 2).set "dog" 1)
      "cat" (by decide)).2.1 2 (by decide)).2 (by decide),
    ((LookupIndex_after_UpdateIndex
      (UpdateIndex NewIndexStore 0 (some ((GoMap.empty.set "cat" 2).set "dog" 1))).2 1
      (GoMap.empty.set "cat" 5) "cat" (by decide)).2.1 5 (by decide)).1.trans (by decide),
    ((LookupIndex_after_UpdateIndex
      (UpdateIndex NewIndexStore 0 (some ((GoMap.empty.set "cat" 2).set "dog" 1))).2 1
      (GoMap.empty.set "cat" 5) "dog" (by decide)).2.2 (by decide)).trans (by decide)⟩

/-- C5. Postings come back in update order: started on a fresh store, after any
sequence of calls of the four methods, for every non-empty term `t`,
`LookupIndex(t)` returns no error and exactly the postings `{d, m[t]}` of the
successful calls `UpdateIndex(d, m)` of the sequence that have `t` as a key of
`m`, in the order of these calls. -/
theorem LookupIndex_in_update_order (calls : List Call) (t : String) (ht : t ≠ "") :
    (LookupIndex (run NewIndexStore calls) t).1 = (some (expectedPostings t calls), none) :=
  LookupIndex_run_new calls t ht

theorem LookupIndex_in_update_order_witness :
    putReturns NewIndexStore
        [.PutDocument "a.txt", .PutDocument "b.txt",
          .UpdateIndex 0 (some ((GoMap.empty.set "cat" 2).set "dog" 1)),
          .UpdateIndex 1 (some (GoMap.empty.set "cat" 5))] = [0, 1]
      ∧ (LookupIndex (run NewIndexStore
          [.PutDocument "a.txt", .PutDocument "b.txt",
            .UpdateIndex 0 (some ((GoMap.empty.set "cat" 2).set "dog" 1)),
            .UpdateIndex 1 (some (GoMap.empty.set "cat" 5))]) "cat").1
        = (some [{ DocumentNumber := 0, WordFrequency := 2 },
            { DocumentNumber := 1, WordFrequency := 5 }], none)
      ∧ (LookupIndex (run NewIndexStore
          [.PutDocument "a.txt", .PutDocument "b.txt",
            .UpdateIndex 0 (some ((GoMap.empty.set "cat" 2).set "dog" 1)),
            .UpdateIndex 1 (some (GoMap.empty.set "cat" 5))]) "dog").1
        = (some [{ DocumentNumber := 0, WordFrequency := 1 }], none)
      ∧ (LookupIndex (run NewIndexStore
          [.PutDocument "a.txt", .PutDocument "b.txt",
            .UpdateIndex 0 (some ((GoMap.empty.set "cat" 2).set "dog" 1)),
            .UpdateIndex 1 (some (GoMap.empty.set "cat" 5))]) "bird").1
        = (some [], none) :=
  ⟨by decide,
    (LookupIndex_in_update_order _ "cat" (by decide)).trans (by decide),
    (LookupIndex_in_update_order _ "dog" (by decide)).trans (by decide),
    (LookupIndex_in_update_order _ "bird" (by decide)).trans (by decide)⟩

/-- C6. `PutDocument(path)` fails exactly when `path` is the empty string. A
failing call returns 0 and the error "document path cannot be empty" and leaves
the whole store (registry, inverted index, counter) as it was, so every later
`PutDocument` returns what it would have returned without the failed call. -/
theorem PutDocument_fails_iff_empty (s : IndexStore) (path : String) :
    ((PutDocument s path).1.2 ≠ none ↔ path = "")
      ∧ (path = "" → PutDocument s path = ((0, some "document path cannot be empty"), s))
      ∧ (path = "" → ∀ next, PutDocument (PutDocument s path).2 next = PutDocument s next) := by
  by_cases h : path = ""
  · subst h
    simp [PutDocument_of_empty]
  · simp [PutDocument_of_ne_empty s path h, h]

/-- C7. In a store reached from a fresh one by any sequence of calls,
`GetDocument(id)`, in whatever order it scans the registry, returns the empty
path and the error "document with number id not found" for every identifier
`id` that no successful `PutDocument` of the sequence returned; such are, while
the number `n` of successful registrations is in the range of `int64`, every
negative `id` and every `id ≥ n`; and on a fresh store every `id`. -/
theorem GetDocument_unregistered (calls : List Call) (order : List (String × Int)) (id : Int)
    (ho : order.Perm (run NewIndexStore calls).documentMap.entries) :
    (id ∉ putReturns NewIndexStore calls →
        GetDocument (run NewIndexStore calls) order id
          = (("", some ("document with number " ++ toString id ++ " not found")),
              run NewIndexStore calls))
      ∧ (successfulPuts calls ≤ 2 ^ 63 → id < 0 ∨ (successfulPuts calls : Int) ≤ id →
          id ∉ putReturns NewIndexStore calls)
      ∧ GetDocument NewIndexStore [] id
          = (("", some ("document with number " ++ toString id ++ " not found")),
              NewIndexStore) := by
  refine ⟨?_, ?_, rfl⟩
  · intro hid
    refine GetDocument_not_found _ order id ho ?_
    intro q hq
    rcases get_run_cases NewIndexStore calls q id hq with h | h
    · simp [NewIndexStore, GoMap.get_empty] at h
    · exact hid h
  · intro h64 hrange hmem
    obtain ⟨k, hk, hget⟩ := List.getElem_of_mem hmem
    have hk' : k < successfulPuts calls := hk
    have h1 := putReturns_new_nth calls k hk
    rw [List.getElem?_eq_getElem hk, hget, Option.some.injEq,
      wrap64_of_inRange _ (by omega) (by omega)] at h1
    omega

theorem GetDocument_unregistered_witness :
    [("b.txt", (1 : Int)), ("a.txt", 0)].Perm
        (run NewIndexStore [.PutDocument "a.txt", .PutDocument "b.txt"]).documentMap.entries
      ∧ GetDocument (run NewIndexStore [.PutDocument "a.txt", .PutDocument "b.txt"])
          [("b.txt", 1), ("a.txt", 0)] 2
        = (("", some "document with number 2 not found"),
            run NewIndexStore [.PutDocument "a.txt", .PutDocument "b.txt"])
      ∧ GetDocument (run NewIndexStore [.PutDocument "a.txt", .PutDocument "b.txt"])
          [("b.txt", 1), ("a.txt", 0)] (-1)
        = (("", some "document with number -1 not found"),
            run NewIndexStore [.PutDocument "a.txt", .PutDocument "b.txt"]) :=
  ⟨by decide,
    (GetDocument_unregistered [.PutDocument "a.txt", .PutDocument "b.txt"]
      [("b.txt", 1), ("a.txt", 0)] 2 (by decide)).1 (by decide),
    (GetDocument_unregistered [.PutDocument "a.txt", .PutDocument "b.txt"]
      [("b.txt", 1), ("a.txt", 0)] (-1) (by decide)).1 (by decide)⟩

/-- C8. Identifier uniqueness is an invariant: in a store reached from a fresh
one by any sequence of calls (fewer than 2^63 successful registrations), no two
distinct paths of the registry carry the same identifier, every identifier of
the registry is at least 0 and less than the counter, and a scan of the
registry, in any order, meets at most one entry with a given identifier. -/
theorem registry_identifiers_unique (calls : List Call) (h64 : successfulPuts calls < 2 ^ 63) :
    (∀ p q i, (run NewIndexStore calls).documentMap.get p = some i →
        (run NewIndexStore calls).documentMap.get q = some i → p = q)
      ∧ (∀ p i, (run NewIndexStore calls).documentMap.get p = some i →
          0 ≤ i ∧ i < (run NewIndexStore calls).documentNumCount)
      ∧ (∀ (order : List (String × Int)) (id : Int),
          order.Perm (run NewIndexStore calls).documentMap.entries →
          (order.filter (fun e => e.2 = id)).length ≤ 1) := by
  obtain ⟨hc, hb, hi⟩ := registryInv_run_new calls h64
  refine ⟨hi, ?_, ?_⟩
  · intro p i h
    rw [hc]
    exact hb p i h
  · intro order id ho
    have hnd : order.Nodup :=
      ho.nodup_iff.mpr (nodup_of_nodup_keys _ (run NewIndexStore calls).documentMap.nodup)
    refine length_le_one_of_all_eq _ (hnd.filter _) ?_
    intro a ha b hb'
    simp only [List.mem_filter, decide_eq_true_eq] at ha hb'
    obtain ⟨pa, ia⟩ := a
    obtain ⟨pb, ib⟩ := b
    simp only at ha hb'
    obtain ⟨hma, rfl⟩ := ha
    obtain ⟨hmb, rfl⟩ := hb'
    have ga := (GoMap.mem_entries_iff _ _ _).mp (ho.mem_iff.mp hma)
    have gb := (GoMap.mem_entries_iff _ _ _).mp (ho.mem_iff.mp hmb)
    rw [hi pa pb _ ga gb]

theorem registry_identifiers_unique_witness :
    successfulPuts [.PutDocument "a.txt", .PutDocument "b.txt", .PutDocument "a.txt"] < 2 ^ 63
      ∧ (run NewIndexStore
          [.PutDocument "a.txt", .PutDocument "b.txt", .PutDocument "a.txt"]).documentMap.entries
        = [("a.txt", 2), ("b.txt", 1)]
      ∧ (run NewIndexStore
          [.PutDocument "a.txt", .PutDocument "b.txt", .PutDocument "a.txt"]).documentNumCount = 3
      ∧ ∀ p i, (run NewIndexStore
          [.PutDocument "a.txt", .PutDocument "b.txt", .PutDocument "a.txt"]).documentMap.get p
            = some i →
          0 ≤ i ∧ i < (run NewIndexStore
            [.PutDocument "a.txt", .PutDocument "b.txt", .PutDocument "a.txt"]).documentNumCount :=
  ⟨by decide, by decide, by decide,
    (registry_identifiers_unique
      [.PutDocument "a.txt", .PutDocument "b.txt", .PutDocument "a.txt"] (by decide)).2.1⟩

/-- C9. `UpdateIndex(id, m)` fails exactly when the mapping `m` is `nil`,
whatever the identifier `id` and the store (so a non-nil `m` succeeds also for
an identifier that was never registered or is negative). A failing call returns
the error "word frequencies cannot be nil" and leaves the whole store (registry,
inverted index, counter) as it was. -/
theorem UpdateIndex_fails_iff_nil (s : IndexStore) (id : Int)
    (wordFrequencies : Option (GoMap Int)) :
    ((UpdateIndex s id wordFrequencies).1 ≠ none ↔ wordFrequencies = none)
      ∧ (wordFrequencies = none →
          UpdateIndex s id wordFrequencies = (some "word frequencies cannot be nil", s)) := by
  cases wordFrequencies with
  | none => simp [UpdateIndex]
  | some m => simp [UpdateIndex]

/-- C10. `UpdateIndex` is not idempotent: in every store, for every identifier
`id` and non-nil mapping `m`, two calls `UpdateIndex(id, m)` in a row both
succeed, and for every non-empty term `t` that is a key of `m`, `LookupIndex(t)`
after them is `LookupIndex(t)` before them followed by two postings
`{id, m[t]}`: it is 2 longer. -/
theorem UpdateIndex_twice (s : IndexStore) (id : Int) (m : GoMap Int) (t : String) (f : Int)
    (ht : t ≠ "") (hf : m.get t = some f) :
    (UpdateIndex s id (some m)).1 = none
      ∧ (UpdateIndex (UpdateIndex s id (some m)).2 id (some m)).1 = none
      ∧ (LookupIndex (UpdateIndex (UpdateIndex s id (some m)).2 id (some m)).2 t).1
        = (some ((LookupIndex s t).1.1.elems
            ++ [{ DocumentNumber := id, WordFrequency := f },
                { DocumentNumber := id, WordFrequency := f }]), none)
      ∧ (LookupIndex (UpdateIndex (UpdateIndex s id (some m)).2 id (some m)).2 t).1.1.elems.length
        = (LookupIndex s t).1.1.elems.length + 2 := by
  have h2 := LookupIndex_UpdateIndex_present (UpdateIndex s id (some m)).2 id m t f ht hf
  have h1 := LookupIndex_UpdateIndex_present s id m t f ht hf
  have h : (LookupIndex (UpdateIndex (UpdateIndex s id (some m)).2 id (some m)).2 t).1
      = (some ((LookupIndex s t).1.1.elems
          ++ [{ DocumentNumber := id, WordFrequency := f },
              { DocumentNumber := id, WordFrequency := f }]), none) := by
    rw [h2, h1]
    simp [goAppend, Postings.elems]
  refine ⟨rfl, rfl, h, ?_⟩
  rw [h]
  simp [Postings.elems]

theorem UpdateIndex_twice_witness :
    "x" ≠ "" ∧ (GoMap.empty.set "x" (3 : Int)).get "x" = some 3
      ∧ (LookupIndex (UpdateIndex (UpdateIndex NewIndexStore 7
          (some (GoMap.empty.set "x" 3))).2 7 (some (GoMap.empty.set "x" 3))).2 "x").1
        = (some [{ DocumentNumber := 7, WordFrequency := 3 },
            { DocumentNumber := 7, WordFrequency := 3 }], none) :=
  ⟨by decide, by decide,
    (UpdateIndex_twice NewIndexStore 7 (GoMap.empty.set "x" 3) "x" 3
      (by decide) (by decide)).2.2.1.trans (by decide)⟩


/-! ## Lemmas on registrations -/

theorem registration_of_put (s : IndexStore) (p : String) (hp : p ≠ "") :
    (Call.PutDocument p).registration s = [(p, s.documentNumCount)] := by
  simp [Call.registration, PutDocument_of_ne_empty s p hp]

theorem registration_of_not_put (s : IndexStore) (c : Call)
    (h : ∀ p, p ≠ "" → c ≠ Call.PutDocument p) : c.registration s = [] := by
  cases c with
  | PutDocument p =>
    have hp : p = "" := by
      by_contra hne
      exact h p hne rfl
    subst hp
    simp [Call.registration, PutDocument_of_empty]
  | GetDocument order n => rfl
  | LookupIndex term => rfl
  | UpdateIndex n wf => rfl

theorem registrations_cons (s : IndexStore) (c : Call) (cs : List Call) :
    registrations s (c :: cs) = c.registration s ++ registrations (c.exec s) cs := rfl

theorem registrations_map_snd (s : IndexStore) (calls : List Call) :
    (registrations s calls).map Prod.snd = putReturns s calls := by
  induction calls generalizing s with
  | nil => rfl
  | cons c cs ih =>
    rw [registrations_cons, putReturns_cons, List.map_append, ih]
    congr 1
    rcases call_cases c with ⟨p, hp, rfl⟩ | hnp
    · rw [registration_of_put s p hp, putReturn_of_put s p hp]
      rfl
    · rw [registration_of_not_put s c hnp, (exec_of_not_put s c hnp).1]
      rfl

theorem lookupEntries_append {ν : Type} (p : String) (l₁ l₂ : List (String × ν)) :
    lookupEntries p (l₁ ++ l₂)
      = match lookupEntries p l₁ with
        | some v => some v
        | none => lookupEntries p l₂ := by
  induction l₁ with
  | nil => rfl
  | cons e rest ih =>
    obtain ⟨k, v⟩ := e
    by_cases hk : k = p
    · simp [lookupEntries, hk]
    · rw [List.cons_append]
      simp only [lookupEntries, hk, if_false]
      exact ih

/-- The registry is the table of the most recent registrations: the entry of a
path is the identifier of its latest registration in the sequence, or, without
one, the entry it had before. -/
theorem get_run_eq (s : IndexStore) (calls : List Call) (p : String) :
    (run s calls).documentMap.get p
      = match lookupEntries p (registrations s calls).reverse with
        | some n => some n
        | none => s.documentMap.get p := by
  induction calls generalizing s with
  | nil => rfl
  | cons c cs ih =>
    rw [run_cons, ih, registrations_cons, List.reverse_append, lookupEntries_append]
    cases lookupEntries p (registrations (c.exec s) cs).reverse with
    | some n => rfl
    | none =>
      simp only
      rcases call_cases c with ⟨q, hq, rfl⟩ | hnp
      · rw [registration_of_put s q hq, exec_of_put s q hq]
        by_cases hqp : q = p
        · subst hqp
          simp [lookupEntries, GoMap.get_set_same]
        · simp [lookupEntries, hqp, GoMap.get_set_other _ _ _ _ hqp]
      · rw [registration_of_not_put s c hnp, (exec_of_not_put s c hnp).2.1]
        rfl

theorem get_run_new (calls : List Call) (p : String) :
    (run NewIndexStore calls).documentMap.get p = lastRegistration calls p := by
  rw [get_run_eq]
  unfold lastRegistration
  cases lookupEntries p (registrations NewIndexStore calls).reverse <;> rfl

theorem scanDocuments_mem (n : Int) (p : String) (order : List (String × Int))
    (h : scanDocuments n order = (p, none)) : (p, n) ∈ order := by
  induction order with
  | nil => simp [scanDocuments] at h
  | cons e rest ih =>
    obtain ⟨q, i⟩ := e
    by_cases hi : i = n
    · subst hi
      simp only [scanDocuments, if_true, Prod.mk.injEq, and_true] at h
      subst h
      exact List.mem_cons_self _ _
    · simp only [scanDocuments, hi, if_false] at h
      exact List.mem_cons_of_mem _ (ih h)

/-- While fewer than 2^63 registrations succeeded, the identifiers returned
are pairwise distinct. -/
theorem putReturns_new_nodup (calls : List Call) (h64 : successfulPuts calls ≤ 2 ^ 63) :
    (putReturns NewIndexStore calls).Nodup := by
  rw [putReturns_eq NewIndexStore calls 0 (by simp [NewIndexStore, wrap64])]
  refine List.Nodup.map_on ?_ (List.nodup_range _)
  intro x hx y hy hxy
  rw [List.mem_range] at hx hy
  have hx' : x < successfulPuts calls := hx
  have hy' : y < successfulPuts calls := hy
  rw [wrap64_of_inRange _ (by omega) (by omega), wrap64_of_inRange _ (by omega) (by omega)]
    at hxy
  omega

theorem eq_of_mem_of_nodup_snd {α β : Type} (l : List (α × β)) (hn : (l.map Prod.snd).Nodup)
    (a b : α) (i : β) (ha : (a, i) ∈ l) (hb : (b, i) ∈ l) : a = b := by
  induction l with
  | nil => simp at ha
  | cons e rest ih =>
    rw [List.map_cons, List.nodup_cons] at hn
    rcases List.mem_cons.mp ha with ha₁ | ha₂
    · rcases List.mem_cons.mp hb with hb₁ | hb₂
      · rw [← hb₁] at ha₁
        exact (Prod.mk.inj ha₁).1
      · have hm : i ∈ rest.map Prod.snd := List.mem_map.mpr ⟨(b, i), hb₂, rfl⟩
        rw [← ha₁] at hn
        exact absurd hm hn.1
    · rcases List.mem_cons.mp hb with hb₁ | hb₂
      · have hm : i ∈ rest.map Prod.snd := List.mem_map.mpr ⟨(a, i), ha₂, rfl⟩
        rw [← hb₁] at hn
        exact absurd hm hn.1
      · exact ih hn.2 ha₂ hb₂

/-! ## Further lemmas on the inverted index -/

theorem expectedPostings_eq_nil_iff (t : String) (calls : List Call) :
    expectedPostings t calls = [] ↔ ∀ c ∈ calls, c.posting t = none := by
  induction calls with
  | nil => simp [expectedPostings]
  | cons c cs ih =>
    unfold expectedPostings at ih ⊢
    cases hp : c.posting t with
    | none => simp [List.filterMap_cons, hp, ih]
    | some pair => simp [List.filterMap_cons, hp]

theorem exec_get_term_eq_none_iff (s : IndexStore) (c : Call) (t : String) :
    (c.exec s).termInvertedIndex.get t = none
      ↔ s.termInvertedIndex.get t = none ∧ c.posting t = none := by
  rw [exec_get_term]
  cases c.posting t <;> simp

theorem run_get_term_eq_none_iff (s : IndexStore) (calls : List Call) (t : String) :
    (run s calls).termInvertedIndex.get t = none
      ↔ s.termInvertedIndex.get t = none ∧ ∀ c ∈ calls, c.posting t = none := by
  induction calls generalizing s with
  | nil => simp [run]
  | cons c cs ih =>
    rw [run_cons, ih, exec_get_term_eq_none_iff]
    simp only [List.mem_cons, forall_eq_or_imp, and_assoc]

theorem storedPostings_of_get (index : GoMap Postings) (t : String) (value : Postings)
    (h : index.get t = some value) : storedPostings index t = value.elems := by
  simp [storedPostings, h]

theorem storedPostings_run_new (calls : List Call) (t : String) :
    storedPostings (run NewIndexStore calls).termInvertedIndex t = expectedPostings t calls := by
  rw [run_storedPostings]
  simp [storedPostings, NewIndexStore, GoMap.get_empty]

theorem GoMap.get_eq_of_perm {ν : Type} (m m' : GoMap ν) (h : m.entries.Perm m'.entries)
    (t : String) : m.get t = m'.get t := by
  cases hg : m.get t with
  | some v =>
    exact ((GoMap.mem_entries_iff m' t v).mp
      (h.mem_iff.mp ((GoMap.mem_entries_iff m t v).mpr hg))).symm
  | none =>
    cases hg' : m'.get t with
    | none => rfl
    | some v =>
      have := (GoMap.mem_entries_iff m t v).mp
        (h.mem_iff.mpr ((GoMap.mem_entries_iff m' t v).mpr hg'))
      rw [hg] at this
      cases this

theorem UpdateIndex_get_eq_of_perm (s : IndexStore) (id : Int) (m m' : GoMap Int)
    (h : m.entries.Perm m'.entries) (t : String) :
    (UpdateIndex s id (some m)).2.termInvertedIndex.get t
      = (UpdateIndex s id (some m')).2.termInvertedIndex.get t := by
  have hg := GoMap.get_eq_of_perm m m' h t
  cases hm : m.get t with
  | none =>
    rw [UpdateIndex_get_absent s id m t hm, UpdateIndex_get_absent s id m' t (hg ▸ hm)]
  | some f =>
    rw [UpdateIndex_get_present s id m t f hm, UpdateIndex_get_present s id m' t f (hg ▸ hm)]

theorem LookupIndex_congr (s s' : IndexStore) (t : String)
    (h : s'.termInvertedIndex.get t = s.termInvertedIndex.get t) :
    (LookupIndex s' t).1 = (LookupIndex s t).1 := by
  unfold LookupIndex
  by_cases ht : t = ""
  · simp [ht]
  · simp only [ht, if_false, h]
    cases s.termInvertedIndex.get t <;> rfl

theorem lookupEntries_isSome_iff {ν : Type} (p : String) (l : List (String × ν)) :
    (∃ v, lookupEntries p l = some v) ↔ p ∈ l.map Prod.fst := by
  constructor
  · rintro ⟨v, hv⟩
    exact List.mem_map.mpr ⟨(p, v), mem_of_lookupEntries p v l hv, rfl⟩
  · intro hp
    cases h : lookupEntries p l with
    | some v => exact ⟨v, rfl⟩
    | none =>
      exfalso
      induction l with
      | nil => simp at hp
      | cons e rest ih =>
        obtain ⟨k, v⟩ := e
        by_cases hk : k = p
        · simp [lookupEntries, hk] at h
        · simp only [lookupEntries, hk, if_false] at h
          simp only [List.map_cons, List.mem_cons] at hp
          rcases hp with hp | hp
          · exact hk hp.symm
          · exact ih hp h

/-- The paths of the registry are the paths registered by the calls. -/
theorem mem_keys_run_new_iff (calls : List Call) (p : String) :
    p ∈ (run NewIndexStore calls).documentMap.entries.map Prod.fst
      ↔ p ∈ ((registrations NewIndexStore calls).map Prod.fst).dedup := by
  rw [← lookupEntries_isSome_iff, List.mem_dedup]
  have h := get_run_new calls p
  unfold GoMap.get at h
  rw [h]
  unfold lastRegistration
  rw [lookupEntries_isSome_iff, List.map_reverse, List.mem_reverse]

theorem length_entries_run_new (calls : List Call) :
    (run NewIndexStore calls).documentMap.entries.length
      = (((registrations NewIndexStore calls).map Prod.fst).dedup).length := by
  have hperm : ((run NewIndexStore calls).documentMap.entries.map Prod.fst).Perm
      (((registrations NewIndexStore calls).map Prod.fst).dedup) :=
    (List.perm_ext_iff_of_nodup (run NewIndexStore calls).documentMap.nodup
      (List.nodup_dedup _)).mpr (mem_keys_run_new_iff calls)
  rw [← hperm.length_eq, List.length_map]

theorem nodup_identifiers_of_registryInv (s : IndexStore) (n : Nat) (h : RegistryInv s n) :
    (s.documentMap.entries.map Prod.snd).Nodup := by
  refine List.Nodup.map_on ?_ (nodup_of_nodup_keys _ s.documentMap.nodup)
  rintro ⟨p, i⟩ hx ⟨q, j⟩ hy hij
  simp only at hij
  subst hij
  have hp := (GoMap.mem_entries_iff _ _ _).mp hx
  have hq := (GoMap.mem_entries_iff _ _ _).mp hy
  rw [h.2.2 p q i hp hq]

theorem GetDocument_eq_iff_get (s : IndexStore) (n : Nat) (hinv : RegistryInv s n)
    (order : List (String × Int)) (ho : order.Perm s.documentMap.entries) (id : Int)
    (p : String) :
    (GetDocument s order id).1 = (p, none) ↔ s.documentMap.get p = some id := by
  constructor
  · intro h
    exact (GoMap.mem_entries_iff _ _ _).mp (ho.mem_iff.mp (scanDocuments_mem id p order h))
  · intro h
    rw [GetDocument_found s order id p ho h (fun q hq => hinv.2.2 q p id hq h)]

theorem LookupIndex_state (s : IndexStore) (t : String) : (LookupIndex s t).2 = s := by
  unfold LookupIndex
  split <;> [rfl; (split <;> rfl)]

/-! ## Properties of the store, continued -/

/-- C11. An empty mapping is a valid no-op: in every store and for every
identifier, `UpdateIndex(id, {})` with an empty, non-nil mapping returns no
error and leaves the whole store as it was, so `LookupIndex` returns for every
term what it returned before. -/
theorem UpdateIndex_empty_mapping (s : IndexStore) (id : Int) :
    UpdateIndex s id (some GoMap.empty) = (none, s)
      ∧ (∀ m : GoMap Int, m.entries = [] → UpdateIndex s id (some m) = (none, s))
      ∧ (∀ t, LookupIndex (UpdateIndex s id (some GoMap.empty)).2 t = LookupIndex s t) := by
  refine ⟨rfl, ?_, fun t => rfl⟩
  intro m hm
  simp [UpdateIndex, hm]

/-- C12. Let a non-empty term `t` be no key of the inverted index of a store
(as in a fresh store), and let any calls follow none of which is a successful
`UpdateIndex` with `t` a key of its mapping. Then `LookupIndex(t)` returns no
error and the empty sequence, of length 0, as a non-nil value. -/
theorem LookupIndex_never_indexed (s : IndexStore) (calls : List Call) (t : String)
    (ht : t ≠ "") (hs : s.termInvertedIndex.get t = none)
    (hnever : ∀ c ∈ calls, c.posting t = none) :
    LookupIndex (run s calls) t = ((some [], none), run s calls)
      ∧ (LookupIndex (run s calls) t).1.1 ≠ none
      ∧ (LookupIndex (run s calls) t).1.1.elems.length = 0 := by
  have hg := (run_get_term_eq_none_iff s calls t).mpr ⟨hs, hnever⟩
  have h1 : (LookupIndex (run s calls) t).1 = (some [], none) := by
    rw [LookupIndex_of_ne_empty _ t ht, hg]
  have h : LookupIndex (run s calls) t = ((some [], none), run s calls) :=
    Prod.ext h1 (LookupIndex_state _ t)
  rw [h]
  exact ⟨rfl, by simp, rfl⟩

theorem LookupIndex_never_indexed_witness :
    "bird" ≠ "" ∧ NewIndexStore.termInvertedIndex.get "bird" = none
      ∧ (LookupIndex (run NewIndexStore
          [.PutDocument "a.txt", .UpdateIndex 0 (some (GoMap.empty.set "cat" 2)),
            .UpdateIndex 0 none, .LookupIndex "cat"]) "bird").1 = (some [], none) :=
  ⟨by decide, by decide,
    congrArg Prod.fst (LookupIndex_never_indexed NewIndexStore
      [.PutDocument "a.txt", .UpdateIndex 0 (some (GoMap.empty.set "cat" 2)),
        .UpdateIndex 0 none, .LookupIndex "cat"] "bird" (by decide) (by decide)
      (by decide)).1⟩

/-- C13. `LookupIndex(term)` fails exactly when `term` is the empty string, in
every store (also one that holds postings under the empty term). A failing call
returns the `nil` slice with the error "term cannot be empty"; for every
non-empty term the error is `nil`. -/
theorem LookupIndex_fails_iff_empty (s : IndexStore) (term : String) :
    ((LookupIndex s term).1.2 ≠ none ↔ term = "")
      ∧ (term = "" → LookupIndex s term = ((none, some "term cannot be empty"), s))
      ∧ (term ≠ "" → (LookupIndex s term).1.2 = none) := by
  by_cases h : term = ""
  · subst h
    simp [LookupIndex]
  · have h1 := LookupIndex_of_ne_empty s term h
    simp [h1, h]

/-- C14 fails on the code: `UpdateIndex` does not look at the terms of its
mapping, so on a fresh store `UpdateIndex(0, {"": 1})` succeeds and makes the
empty string a key of the inverted index, with the posting `{0, 1}`; and
`LookupIndex("")` refuses the empty term. -/
theorem UpdateIndex_stores_empty_term :
    (UpdateIndex NewIndexStore 0 (some (GoMap.empty.set "" 1))).1 = none
      ∧ (run NewIndexStore
          [.UpdateIndex 0 (some (GoMap.empty.set "" 1))]).termInvertedIndex.get ""
        = some (some [{ DocumentNumber := 0, WordFrequency := 1 }])
      ∧ (LookupIndex (run NewIndexStore [.UpdateIndex 0 (some (GoMap.empty.set "" 1))]) "").1
        = (none, some "term cannot be empty") := by
  decide

/-- C15. The two queries are read-only: in every store and for every argument,
`LookupIndex(term)` and `GetDocument(id)` (whatever its scan order), failing or
not, return the store as it was, so the calls that follow reach the same store
and return the same identifiers as without the query. -/
theorem queries_are_read_only (s : IndexStore) (term : String) (order : List (String × Int))
    (id : Int) :
    (LookupIndex s term).2 = s
      ∧ (GetDocument s order id).2 = s
      ∧ (∀ calls, run s (Call.LookupIndex term :: calls) = run s calls
          ∧ putReturns s (Call.LookupIndex term :: calls) = putReturns s calls)
      ∧ (∀ calls, run s (Call.GetDocument order id :: calls) = run s calls
          ∧ putReturns s (Call.GetDocument order id :: calls) = putReturns s calls) := by
  have hl : (Call.LookupIndex term).exec s = s := LookupIndex_state s term
  refine ⟨LookupIndex_state s term, rfl, ?_, fun calls => ⟨rfl, rfl⟩⟩
  intro calls
  constructor
  · rw [run_cons, hl]
  · rw [putReturns_cons, hl]
    rfl

/-- C16. A successful `PutDocument(p)` changes the registration state only: it
returns the counter, the counter becomes its successor (one more, as long as
the `int64` counter is below its maximum), the entry of `p` in the registry
becomes the returned identifier, the entry of every other path is as before,
and the inverted index is as before, so `LookupIndex` returns for every term
what it returned before. -/
theorem PutDocument_changes_registration_only (s : IndexStore) (p : String) (hp : p ≠ "") :
    (PutDocument s p).1 = (s.documentNumCount, none)
      ∧ (PutDocument s p).2.documentNumCount = wrap64 (s.documentNumCount + 1)
      ∧ (-2 ^ 63 ≤ s.documentNumCount → s.documentNumCount + 1 < 2 ^ 63 →
          (PutDocument s p).2.documentNumCount = s.documentNumCount + 1)
      ∧ (PutDocument s p).2.documentMap.get p = some (PutDocument s p).1.1
      ∧ (∀ q, q ≠ p → (PutDocument s p).2.documentMap.get q = s.documentMap.get q)
      ∧ (PutDocument s p).2.termInvertedIndex = s.termInvertedIndex
      ∧ (∀ t, (LookupIndex (PutDocument s p).2 t).1 = (LookupIndex s t).1) := by
  rw [PutDocument_of_ne_empty s p hp]
  refine ⟨rfl, rfl, ?_, GoMap.get_set_same _ _ _, ?_, rfl, fun t => LookupIndex_congr _ _ t rfl⟩
  · intro hlo hhi
    exact wrap64_of_inRange _ (by omega) hhi
  · intro q hq
    exact GoMap.get_set_other _ _ _ _ (fun e => hq e.symm)

theorem PutDocument_changes_registration_only_witness :
    "b.txt" ≠ ""
      ∧ (PutDocument (run NewIndexStore [.PutDocument "a.txt"]) "b.txt").1 = (1, none)
      ∧ (PutDocument (run NewIndexStore [.PutDocument "a.txt"]) "b.txt").2.documentNumCount = 2
      ∧ (PutDocument (run NewIndexStore [.PutDocument "a.txt"]) "b.txt").2.documentMap.entries
        = [("a.txt", 0), ("b.txt", 1)]
      ∧ (PutDocument (run NewIndexStore [.PutDocument "a.txt"]) "b.txt").2.termInvertedIndex
        = (run NewIndexStore [.PutDocument "a.txt"]).termInvertedIndex :=
  ⟨by decide, by decide, by decide, by decide,
    (PutDocument_changes_registration_only (run NewIndexStore [.PutDocument "a.txt"]) "b.txt"
      (by decide)).2.2.2.2.2.1⟩

/-- C17. `GetDocument` under re-registration: in a store reached from a fresh
one by any sequence of calls (fewer than 2^63 successful registrations), and in
whatever order the registry is scanned, `GetDocument(id)` returns the path `p`
and no error exactly when `id` is the identifier returned by the most recent
successful `PutDocument(p)`, and it returns the empty path and the not-found
error exactly when `id` is no such identifier. So an identifier returned for a
path that was registered again later is not found, the identifiers that
resolve are those of the registry entries, all distinct, and their number is
the number of distinct registered paths. -/
theorem GetDocument_resolves_latest_registration (calls : List Call)
    (order : List (String × Int)) (h64 : successfulPuts calls < 2 ^ 63)
    (ho : order.Perm (run NewIndexStore calls).documentMap.entries) :
    (∀ id p, (GetDocument (run NewIndexStore calls) order id).1 = (p, none)
        ↔ lastRegistration calls p = some id)
      ∧ (∀ id, (GetDocument (run NewIndexStore calls) order id).1
          = ("", some ("document with number " ++ toString id ++ " not found"))
        ↔ ∀ p, lastRegistration calls p ≠ some id)
      ∧ (∀ p i, (p, i) ∈ registrations NewIndexStore calls →
          lastRegistration calls p ≠ some i →
          (GetDocument (run NewIndexStore calls) order i).1
            = ("", some ("document with number " ++ toString i ++ " not found")))
      ∧ (∀ id, id ∈ (run NewIndexStore calls).documentMap.entries.map Prod.snd
          ↔ ∃ p, (GetDocument (run NewIndexStore calls) order id).1 = (p, none))
      ∧ ((run NewIndexStore calls).documentMap.entries.map Prod.snd).Nodup
      ∧ ((run NewIndexStore calls).documentMap.entries.map Prod.snd).length
        = (((registrations NewIndexStore calls).map Prod.fst).dedup).length := by
  have hinv := registryInv_run_new calls h64
  have hiff : ∀ id p, (GetDocument (run NewIndexStore calls) order id).1 = (p, none)
      ↔ lastRegistration calls p = some id := by
    intro id p
    rw [GetDocument_eq_iff_get _ _ hinv order ho id p, get_run_new]
  have hfail : ∀ id, (∀ p, lastRegistration calls p ≠ some id) →
      (GetDocument (run NewIndexStore calls) order id).1
        = ("", some ("document with number " ++ toString id ++ " not found")) := by
    intro id h
    rw [GetDocument_not_found _ order id ho (fun q => by rw [get_run_new]; exact h q)]
  refine ⟨hiff, ?_, ?_, ?_, nodup_identifiers_of_registryInv _ _ hinv, ?_⟩
  · intro id
    constructor
    · intro h p hp
      have h' := (hiff id p).mpr hp
      rw [h] at h'
      cases h'
    · exact hfail id
  · intro p i hmem hne
    refine hfail i ?_
    intro q hq
    have hq' : (q, i) ∈ registrations NewIndexStore calls :=
      List.mem_reverse.mp (mem_of_lookupEntries q i _ hq)
    have hnd : ((registrations NewIndexStore calls).map Prod.snd).Nodup := by
      rw [registrations_map_snd]
      exact putReturns_new_nodup calls (Nat.le_of_lt h64)
    have hqp : q = p := eq_of_mem_of_nodup_snd _ hnd q p i hq' hmem
    subst hqp
    exact hne hq
  · intro id
    constructor
    · intro h
      obtain ⟨⟨p, i⟩, hmem, rfl⟩ := List.mem_map.mp h
      exact ⟨p, (GetDocument_eq_iff_get _ _ hinv order ho _ p).mpr
        ((GoMap.mem_entries_iff _ _ _).mp hmem)⟩
    · rintro ⟨p, hp⟩
      have := (GetDocument_eq_iff_get _ _ hinv order ho id p).mp hp
      exact List.mem_map.mpr ⟨(p, id), (GoMap.mem_entries_iff _ _ _).mpr this, rfl⟩
  · rw [List.length_map]
    exact length_entries_run_new calls

theorem GetDocument_resolves_latest_registration_witness :
    successfulPuts [.PutDocument "a.txt", .PutDocument "b.txt", .PutDocument "a.txt"] < 2 ^ 63
      ∧ registrations NewIndexStore
          [.PutDocument "a.txt", .PutDocument "b.txt", .PutDocument "a.txt"]
        = [("a.txt", 0), ("b.txt", 1), ("a.txt", 2)]
      ∧ (GetDocument (run NewIndexStore
          [.PutDocument "a.txt", .PutDocument "b.txt", .PutDocument "a.txt"])
          [("b.txt", 1), ("a.txt", 2)] 2).1 = ("a.txt", none)
      ∧ (GetDocument (run NewIndexStore
          [.PutDocument "a.txt", .PutDocument "b.txt", .PutDocument "a.txt"])
          [("b.txt", 1), ("a.txt", 2)] 0).1 = ("", some "document with number 0 not found")
      ∧ ((run NewIndexStore
          [.PutDocument "a.txt", .PutDocument "b.txt",
            .PutDocument "a.txt"]).documentMap.entries.map Prod.snd).length = 2 :=
  ⟨by decide, by decide,
    ((GetDocument_resolves_latest_registration
      [.PutDocument "a.txt", .PutDocument "b.txt", .PutDocument "a.txt"]
      [("b.txt", 1), ("a.txt", 2)] (by decide) (by decide)).1 2 "a.txt").mpr (by decide),
    (GetDocument_resolves_latest_registration
      [.PutDocument "a.txt", .PutDocument "b.txt", .PutDocument "a.txt"]
      [("b.txt", 1), ("a.txt", 2)] (by decide) (by decide)).2.2.1 "a.txt" 0 (by decide)
      (by decide),
    (GetDocument_resolves_latest_registration
      [.PutDocument "a.txt", .PutDocument "b.txt", .PutDocument "a.txt"]
      [("b.txt", 1), ("a.txt", 2)] (by decide) (by decide)).2.2.2.2.2.trans (by decide)⟩

/-- C18. `UpdateIndex` does not depend on the order in which it visits the
entries of its mapping: in every store, for every identifier, two
enumerations of the same non-nil mapping (the entries of one a permutation of
the entries of the other) give the same error, the same registry and counter,
and the same inverted index: the same value under every term, hence the same
entries and the same `LookupIndex` results. A term that is a key of the mapping
gets exactly one posting appended. -/
theorem UpdateIndex_order_independent (s : IndexStore) (id : Int) (m m' : GoMap Int)
    (horder : m.entries.Perm m'.entries) :
    (UpdateIndex s id (some m)).1 = (UpdateIndex s id (some m')).1
      ∧ (∀ t, (UpdateIndex s id (some m)).2.termInvertedIndex.get t
          = (UpdateIndex s id (some m')).2.termInvertedIndex.get t)
      ∧ (UpdateIndex s id (some m)).2.termInvertedIndex.entries.Perm
          (UpdateIndex s id (some m')).2.termInvertedIndex.entries
      ∧ (∀ t, (LookupIndex (UpdateIndex s id (some m)).2 t).1
          = (LookupIndex (UpdateIndex s id (some m')).2 t).1)
      ∧ (UpdateIndex s id (some m)).2.documentMap = (UpdateIndex s id (some m')).2.documentMap
      ∧ (UpdateIndex s id (some m)).2.documentNumCount
          = (UpdateIndex s id (some m')).2.documentNumCount
      ∧ (∀ t f, m.get t = some f →
          (UpdateIndex s id (some m')).2.termInvertedIndex.get t
            = some (some (storedPostings s.termInvertedIndex t
                ++ [{ DocumentNumber := id, WordFrequency := f }]))) := by
  have hget := UpdateIndex_get_eq_of_perm s id m m' horder
  refine ⟨rfl, hget, ?_, fun t => LookupIndex_congr _ _ t (hget t), rfl, rfl, ?_⟩
  · refine (List.perm_ext_iff_of_nodup
      (nodup_of_nodup_keys _ (UpdateIndex s id (some m)).2.termInvertedIndex.nodup)
      (nodup_of_nodup_keys _ (UpdateIndex s id (some m')).2.termInvertedIndex.nodup)).mpr ?_
    rintro ⟨t, v⟩
    rw [GoMap.mem_entries_iff, GoMap.mem_entries_iff, hget t]
  · intro t f hf
    rw [← hget t]
    exact UpdateIndex_get_present s id m t f hf

theorem UpdateIndex_order_independent_witness :
    ((GoMap.empty.set "cat" (2 : Int)).set "dog" 1).entries.Perm
        ((GoMap.empty.set "dog" (1 : Int)).set "cat" 2).entries
      ∧ ((GoMap.empty.set "cat" (2 : Int)).set "dog" 1).entries
        ≠ ((GoMap.empty.set "dog" (1 : Int)).set "cat" 2).entries
      ∧ ∀ t, (LookupIndex (UpdateIndex NewIndexStore 0
            (some ((GoMap.empty.set "cat" 2).set "dog" 1))).2 t).1
          = (LookupIndex (UpdateIndex NewIndexStore 0
            (some ((GoMap.empty.set "dog" 1).set "cat" 2))).2 t).1 :=
  ⟨by decide, by decide,
    (UpdateIndex_order_independent NewIndexStore 0 ((GoMap.empty.set "cat" 2).set "dog" 1)
      ((GoMap.empty.set "dog" 1).set "cat" 2) (by decide)).2.2.2.1⟩

/-- C19. `UpdateIndex` touches the inverted index only: in every store, for
every identifier and every mapping, `nil` or not, the registry and the counter
after `UpdateIndex(id, m)` are as before, so `GetDocument` returns for every
identifier (and scan order) what it returned before, and the next
`PutDocument` returns what it would have returned without the update. -/
theorem UpdateIndex_keeps_registry (s : IndexStore) (id : Int)
    (wordFrequencies : Option (GoMap Int)) :
    (UpdateIndex s id wordFrequencies).2.documentMap = s.documentMap
      ∧ (UpdateIndex s id wordFrequencies).2.documentNumCount = s.documentNumCount
      ∧ (∀ order n, (GetDocument (UpdateIndex s id wordFrequencies).2 order n).1
          = (GetDocument s order n).1)
      ∧ (∀ p, (PutDocument (UpdateIndex s id wordFrequencies).2 p).1 = (PutDocument s p).1) := by
  cases wordFrequencies with
  | none => exact ⟨rfl, rfl, fun _ _ => rfl, fun _ => rfl⟩
  | some m =>
    refine ⟨rfl, rfl, fun _ _ => rfl, ?_⟩
    intro p
    unfold PutDocument
    split <;> rfl

/-- C20. Stored postings sequences are never empty: in a store reached from a
fresh one by any sequence of calls, every key of the inverted index holds a
sequence of length at least 1. Hence, for every non-empty term `t`,
`LookupIndex(t)` returns an empty sequence exactly when `t` was a key of the
mapping of no successful `UpdateIndex` of the sequence. -/
theorem stored_postings_nonempty (calls : List Call) :
    (∀ t value, (run NewIndexStore calls).termInvertedIndex.get t = some value →
        1 ≤ value.elems.length)
      ∧ (∀ t, t ≠ "" →
          ((LookupIndex (run NewIndexStore calls) t).1.1.elems = []
            ↔ ∀ c ∈ calls, c.posting t = none))
      ∧ (∀ t, t ≠ "" →
          ((LookupIndex (run NewIndexStore calls) t).1 = (some [], none)
            ↔ ∀ c ∈ calls, c.posting t = none)) := by
  refine ⟨?_, ?_, ?_⟩
  · intro t value hg
    have hs := storedPostings_run_new calls t
    rw [storedPostings_of_get _ t value hg] at hs
    have hne : expectedPostings t calls ≠ [] := by
      intro he
      have hnone := (run_get_term_eq_none_iff NewIndexStore calls t).mpr
        ⟨rfl, (expectedPostings_eq_nil_iff t calls).mp he⟩
      rw [hg] at hnone
      cases hnone
    rw [hs]
    exact List.length_pos.mpr hne
  · intro t ht
    rw [LookupIndex_run_new calls t ht, ← expectedPostings_eq_nil_iff]
    rfl
  · intro t ht
    rw [LookupIndex_run_new calls t ht, ← expectedPostings_eq_nil_iff]
    simp

end Storage
